import Mathlib

/-!
Verification of the historical-data retrieval and caching layer of the
crypto-finance-tools repository, as a shallow embedding in Lean 4.

The main model follows `src/services/coinbase/historicaldata.py`
(class `HistoricalData`): the chunk planning loop of `get_historical_data`,
the cache key computation `_get_cache_key`, the cache read `_get_cached_data`
(with lazy TTL eviction and the live-window exclusion), the cache write
`_cache_data`, the dedup/assembly pass and the final sort.  Wall-clock time is
a parameter `now : Nat` (unix seconds); the on-disk cache is a map from key
strings to entries (one file per key); the upstream API is an oracle
`fetch : Nat → Nat → FetchResult` giving, per chunk boundary pair, either a
candle list, an HTTP error (the only exception type the code catches on the
fetch path), or any other exception.  Effects irrelevant to the claims
(logging, sleeps) are dropped; JSON round-trips of candle dictionaries are
modelled as the identity.

A second, separate model follows `fetch_coinbase_data` in
`src/trend_detection.py`: its backward chunk loop and inner retry loop with
exponential backoff (`time.sleep(2 ** retries)`), recording the backoff
delays in a trace.
-/

/-- One candle dictionary as produced by `_convert_candle_to_dict`:
fields `start`, `time` (copied from `start`), `low`, `high`, `open`,
`close`, `volume`.  Prices are modelled as integers; the claims only use
equality on `close` and ordering on `start`. -/
structure Candle where
  start : Nat
  time : Nat
  low : Int
  high : Int
  «open» : Int
  close : Int
  volume : Int
deriving DecidableEq, Repr

/-- A raw candle object returned by the upstream API (before
`_convert_candle_to_dict` adds the `time` field). -/
structure ApiCandle where
  start : Nat
  low : Int
  high : Int
  «open» : Int
  close : Int
  volume : Int
deriving DecidableEq, Repr

/-- `_convert_candle_to_dict`: turn an API candle into a candle dictionary;
the `time` field is set to `start` for compatibility. -/
def convertCandleToDict (c : ApiCandle) : Candle :=
  { start := c.start, time := c.start, low := c.low, high := c.high,
    «open» := c.«open», close := c.close, volume := c.volume }

/-- The `CHUNK_SIZE_CANDLES` table of `historicaldata.py`: a map from
granularity string to a chunk size in HOURS (the value is passed to
`timedelta(hours=...)`). -/
def CHUNK_SIZE_CANDLES : List (String × Nat) :=
  [("ONE_MINUTE", 5), ("FIVE_MINUTE", 25), ("TEN_MINUTE", 50),
   ("FIFTEEN_MINUTE", 75), ("THIRTY_MINUTE", 150), ("ONE_HOUR", 300),
   ("SIX_HOUR", 1800), ("ONE_DAY", 7200)]

/-- `CHUNK_SIZE_CANDLES.get(granularity, 300)`: chunk size in hours, with a
default of 300 for unknown granularities. -/
def chunkSizeHours (g : String) : Nat :=
  (CHUNK_SIZE_CANDLES.lookup g).getD 300

/-- `CACHE_TTL = 3600` seconds. -/
def CACHE_TTL : Nat := 3600

/-- One cache file's content, as written by `_cache_data`: the store
timestamp and the candle list. -/
structure CacheEntry where
  timestamp : Nat
  candles : List Candle
deriving DecidableEq, Repr

/-- The on-disk cache: for each key string, the entry stored in file
`<key>.json`, or `none` when no such file exists. -/
def Cache : Type := String → Option CacheEntry

/-- An empty cache directory. -/
def emptyCache : Cache := fun _ => none

/-- `_get_cache_key`: round `start` down to the hour; round `end` down to
the hour unless `end` is within the live window (`now - end < 3600`), in
which case the exact `end` is used; concatenate the four parts.  (The
md5 hashing of the concatenated string is dropped: the pre-hash string is
the key.) -/
def getCacheKey (productId : String) (s e : Nat) (g : String) (now : Nat) : String :=
  let startHour := s - s % 3600
  let endHour := if now - e < 3600 then e else e - e % 3600
  productId ++ "_" ++ toString startHour ++ "_" ++ toString endHour ++ "_" ++ g

/-- `_get_cached_data`: return the cached candles iff the file exists, the
entry is not older than `CACHE_TTL` (else the file is deleted and the read
is a miss), and the request's end is not within the live window
(`now - end < 3600`, else a miss regardless of freshness).  Returns the
result together with the possibly-updated cache. -/
def getCachedData (cache : Cache) (cacheKey : String) (endTimestamp now : Nat) :
    Option (List Candle) × Cache :=
  match cache cacheKey with
  | none => (none, cache)
  | some entry =>
    if now - entry.timestamp > CACHE_TTL then
      (none, fun k => if k = cacheKey then none else cache k)
    else if now - endTimestamp < 3600 then
      (none, cache)
    else
      (some entry.candles, cache)

/-- `_cache_data`: write the candle list to the key's file together with the
current time as store timestamp (overwriting any previous entry). -/
def cacheData (cache : Cache) (cacheKey : String) (candles : List Candle) (now : Nat) : Cache :=
  fun k => if k = cacheKey then some ⟨now, candles⟩ else cache k

/-- The chunk loop of `get_historical_data`, with explicit fuel (the loop
advances by `min (s + size) e` each iteration, so `e - s` steps always
suffice when `0 < size`):
`while current_start < end_date: current_end = min(current_start + chunk_size, end_date); ...`. -/
def chunkPlanAux (size e : Nat) : Nat → Nat → List (Nat × Nat)
  | 0, _ => []
  | fuel + 1, s =>
    if s < e then (s, min (s + size) e) :: chunkPlanAux size e fuel (min (s + size) e)
    else []

/-- The list of `(current_start, current_end)` chunk boundary pairs iterated
by `get_historical_data` for range `[s, e)` and chunk size `size` seconds. -/
def chunkPlan (s e size : Nat) : List (Nat × Nat) :=
  chunkPlanAux size e (e - s) s

/-- The dedup key of a candle: `(candle['start'], candle['close'])`. -/
def candleKey (c : Candle) : Nat × Int := (c.start, c.close)

/-- One pass of the dedup filter: keep the candles whose key is not in
`seen`, adding each admitted key to `seen`; returns the admitted candles (in
order) and the grown seen-set. -/
def addUnseen (seen : List (Nat × Int)) : List Candle → List Candle × List (Nat × Int)
  | [] => ([], seen)
  | c :: rest =>
    if candleKey c ∈ seen then addUnseen seen rest
    else
      let r := addUnseen (candleKey c :: seen) rest
      (c :: r.1, r.2)

/-- Insertion step of the final sort by `start`. -/
def insertByStart (c : Candle) : List Candle → List Candle
  | [] => [c]
  | d :: rest => if c.start ≤ d.start then c :: d :: rest else d :: insertByStart c rest

/-- The final `all_candles.sort(key=lambda x: x['start'])`: a stable sort by
the `start` field. -/
def sortByStart : List Candle → List Candle
  | [] => []
  | c :: rest => insertByStart c (sortByStart rest)

/-- Outcome of one upstream `market_data.get_candles` call: a candle list,
an HTTP error (`requests.exceptions.HTTPError`, the only exception type the
code catches around the fetch), or any other raised exception. -/
inductive FetchResult where
  | ok (candles : List ApiCandle)
  | httpError
  | otherError
deriving DecidableEq, Repr

/-- A record of one upstream API call made by `get_historical_data`. -/
structure ApiCall where
  productId : String
  startT : Nat
  endT : Nat
  granularity : String
deriving DecidableEq, Repr

/-- The running state of `get_historical_data`: the cache directory, the
`seen_candles` set, the accumulated `all_candles`, plus traces of the
upstream calls attempted and of the `_cache_data` invocations (key and the
chunk's end timestamp). -/
structure RunState where
  cache : Cache
  seen : List (Nat × Int)
  allCandles : List Candle
  apiCalls : List ApiCall
  cacheWrites : List (String × Nat)

/-- Initial state of one `get_historical_data` run over a given cache. -/
def initState (cache : Cache) : RunState :=
  ⟨cache, [], [], [], []⟩

/-- The body of the chunk loop of `get_historical_data` for one chunk
`(current_start, current_end)`: consult the cache; on a hit, admit the
unseen cached candles; on a miss, call the upstream API, convert the
candles, admit the unseen ones, and cache the full converted list unless
the chunk's end is within the live window; an `HTTPError` is logged and the
loop continues; any other exception propagates. -/
def processChunk (productId g : String) (now : Nat) (fetch : Nat → Nat → FetchResult)
    (st : RunState) (chunk : Nat × Nat) : Except Unit RunState :=
  let s := chunk.1
  let e := chunk.2
  let cacheKey := getCacheKey productId s e g now
  match getCachedData st.cache cacheKey e now with
  | (some cachedCandles, cache') =>
    let r := addUnseen st.seen cachedCandles
    .ok { st with cache := cache', seen := r.2, allCandles := st.allCandles ++ r.1 }
  | (none, cache') =>
    let st' : RunState :=
      { st with cache := cache', apiCalls := st.apiCalls ++ [⟨productId, s, e, g⟩] }
    match fetch s e with
    | .ok apiCandles =>
      let candleDicts := apiCandles.map convertCandleToDict
      let r := addUnseen st'.seen candleDicts
      if 3600 ≤ now - e then
        .ok { st' with cache := cacheData cache' cacheKey candleDicts now,
                       seen := r.2, allCandles := st'.allCandles ++ r.1,
                       cacheWrites := st'.cacheWrites ++ [(cacheKey, e)] }
      else
        .ok { st' with seen := r.2, allCandles := st'.allCandles ++ r.1 }
    | .httpError => .ok st'
    | .otherError => .error ()

/-- Run the chunk loop over a list of chunks, threading the state;
an uncaught exception aborts the whole run. -/
def runChunks (productId g : String) (now : Nat) (fetch : Nat → Nat → FetchResult) :
    RunState → List (Nat × Nat) → Except Unit RunState
  | st, [] => .ok st
  | st, c :: rest =>
    match processChunk productId g now fetch st c with
    | .error err => .error err
    | .ok st' => runChunks productId g now fetch st' rest

/-- `get_historical_data(product_id, start_date, end_date, granularity)`:
plan the chunks, process them in order against the cache and the upstream
API, and return the accumulated candles sorted by `start` (together with
the final state, for the traces). -/
def getHistoricalData (productId : String) (startDate endDate : Nat) (g : String)
    (now : Nat) (cache : Cache) (fetch : Nat → Nat → FetchResult) :
    Except Unit (List Candle × RunState) :=
  let plan := chunkPlan startDate endDate (3600 * chunkSizeHours g)
  match runChunks productId g now fetch (initState cache) plan with
  | .error err => .error err
  | .ok st => .ok (sortByStart st.allCandles, st)

/-- The candle list returned by a `get_historical_data` run, or `[]` when
the run aborted with an uncaught exception. -/
def resultCandles (x : Except Unit (List Candle × RunState)) : List Candle :=
  match x with
  | .error _ => []
  | .ok r => r.1

/-! ### Properties of the chunk planning loop -/

theorem chunkSizeHours_pos (g : String) : 0 < chunkSizeHours g := by
  simp only [chunkSizeHours, CHUNK_SIZE_CANDLES, List.lookup]
  repeat' split
  all_goals simp [Option.getD]

theorem chunkPlanAux_nil (size e fuel s : Nat) (h : ¬ s < e) :
    chunkPlanAux size e fuel s = [] := by
  cases fuel <;> simp [chunkPlanAux, h]

theorem chunkPlanAux_congr (size e : Nat) (hsize : 0 < size) :
    ∀ fuel₁ fuel₂ s, e - s ≤ fuel₁ → e - s ≤ fuel₂ →
      chunkPlanAux size e fuel₁ s = chunkPlanAux size e fuel₂ s := by
  intro fuel₁
  induction fuel₁ with
  | zero =>
    intro fuel₂ s h1 _
    rw [chunkPlanAux_nil size e 0 s (by omega), chunkPlanAux_nil size e fuel₂ s (by omega)]
  | succ n ih =>
    intro fuel₂ s h1 h2
    by_cases hs : s < e
    · cases fuel₂ with
      | zero => omega
      | succ m =>
        simp only [chunkPlanAux, hs, if_true]
        congr 1
        exact ih m (min (s + size) e) (by omega) (by omega)
    · rw [chunkPlanAux_nil size e (n+1) s hs, chunkPlanAux_nil size e fuel₂ s hs]

theorem chunkPlan_eq (s e size : Nat) (hsize : 0 < size) :
    chunkPlan s e size =
      if s < e then (s, min (s + size) e) :: chunkPlan (min (s + size) e) e size
      else [] := by
  by_cases hs : s < e
  · simp only [hs, if_true, chunkPlan]
    have h1 : e - s = (e - s - 1) + 1 := by omega
    rw [h1]
    simp only [chunkPlanAux, hs, if_true]
    congr 1
    exact chunkPlanAux_congr size e hsize (e - s - 1) (e - (min (s + size) e)) (min (s + size) e)
      (by omega) (by omega)
  · simp only [hs, if_false, chunkPlan]
    exact chunkPlanAux_nil size e (e - s) s hs

theorem chunkPlanAux_mem (size e : Nat) (hsize : 0 < size) :
    ∀ fuel s, e - s ≤ fuel →
      ∀ c ∈ chunkPlanAux size e fuel s, s ≤ c.1 ∧ c.1 < c.2 ∧ c.2 ≤ c.1 + size ∧ c.2 ≤ e := by
  intro fuel
  induction fuel with
  | zero => intro s h c hc; rw [chunkPlanAux_nil size e 0 s (by omega)] at hc; simp at hc
  | succ n ih =>
    intro s h c hc
    by_cases hs : s < e
    · simp only [chunkPlanAux, hs, if_true, List.mem_cons] at hc
      rcases hc with hc | hc
      · subst hc; constructor; omega; constructor; omega; omega
      · have := ih (min (s + size) e) (by omega) c hc
        omega
    · rw [chunkPlanAux_nil size e (n+1) s hs] at hc; simp at hc

theorem chunkPlanAux_head (size e fuel s : Nat) (h : e - s ≤ fuel) (hs : s < e) :
    (chunkPlanAux size e fuel s).head? = some (s, min (s + size) e) := by
  cases fuel with
  | zero => omega
  | succ n => simp [chunkPlanAux, hs]

theorem chunkPlanAux_chain (size e : Nat) (hsize : 0 < size) :
    ∀ fuel s, e - s ≤ fuel →
      List.Chain' (fun a b => a.2 = b.1) (chunkPlanAux size e fuel s) := by
  intro fuel
  induction fuel with
  | zero => intro s h; rw [chunkPlanAux_nil size e 0 s (by omega)]; simp
  | succ n ih =>
    intro s h
    by_cases hs : s < e
    · simp only [chunkPlanAux, hs, if_true]
      apply List.chain'_cons'.mpr
      constructor
      · intro y hy
        by_cases hm : min (s + size) e < e
        · rw [chunkPlanAux_head size e n (min (s + size) e) (by omega) hm] at hy
          simp only [Option.mem_def, Option.some.injEq] at hy
          subst hy; rfl
        · rw [chunkPlanAux_nil size e n (min (s + size) e) hm] at hy
          simp at hy
      · exact ih (min (s + size) e) (by omega)
    · rw [chunkPlanAux_nil size e (n+1) s hs]; simp

theorem chunkPlanAux_pairwise (size e : Nat) (hsize : 0 < size) :
    ∀ fuel s, e - s ≤ fuel →
      List.Pairwise (fun a b => a.2 ≤ b.1) (chunkPlanAux size e fuel s) := by
  intro fuel
  induction fuel with
  | zero => intro s h; rw [chunkPlanAux_nil size e 0 s (by omega)]; simp
  | succ n ih =>
    intro s h
    by_cases hs : s < e
    · simp only [chunkPlanAux, hs, if_true]
      apply List.pairwise_cons.mpr
      constructor
      · intro c hc
        have := chunkPlanAux_mem size e hsize n (min (s + size) e) (by omega) c hc
        simp only
        omega
      · exact ih (min (s + size) e) (by omega)
    · rw [chunkPlanAux_nil size e (n+1) s hs]; simp

theorem chunkPlanAux_getLast (size e : Nat) (hsize : 0 < size) :
    ∀ fuel s, e - s ≤ fuel → s < e →
      ((chunkPlanAux size e fuel s).getLast?.map Prod.snd) = some e := by
  intro fuel
  induction fuel with
  | zero => intro s h hs; omega
  | succ n ih =>
    intro s h hs
    simp only [chunkPlanAux, hs, if_true]
    by_cases hm : min (s + size) e < e
    · have hhead := chunkPlanAux_head size e n (min (s + size) e) (by omega) hm
      rcases htail : chunkPlanAux size e n (min (s + size) e) with _ | ⟨y, ys⟩
      · rw [htail] at hhead; simp at hhead
      · rw [← htail]
        have hlast := ih (min (s + size) e) (by omega) hm
        rw [htail] at hlast ⊢
        rw [List.getLast?_cons_cons]
        exact hlast
    · rw [chunkPlanAux_nil size e n (min (s + size) e) hm]
      simp only [List.getLast?_singleton, Option.map_some]
      have : min (s + size) e = e := by omega
      rw [this]
      rfl

theorem chunkPlanAux_cover (size e : Nat) (hsize : 0 < size) :
    ∀ fuel s, e - s ≤ fuel → ∀ t,
      (∃ c ∈ chunkPlanAux size e fuel s, c.1 ≤ t ∧ t < c.2) ↔ (s ≤ t ∧ t < e) := by
  intro fuel
  induction fuel with
  | zero =>
    intro s h t
    rw [chunkPlanAux_nil size e 0 s (by omega)]
    simp; omega
  | succ n ih =>
    intro s h t
    by_cases hs : s < e
    · simp only [chunkPlanAux, hs, if_true]
      have hsplit : (∃ c ∈ (s, min (s + size) e) :: chunkPlanAux size e n (min (s + size) e),
          c.1 ≤ t ∧ t < c.2) ↔
          ((s ≤ t ∧ t < min (s + size) e) ∨
           (∃ c ∈ chunkPlanAux size e n (min (s + size) e), c.1 ≤ t ∧ t < c.2)) := by
        simp only [List.mem_cons]
        constructor
        · rintro ⟨c, hc | hc, hct⟩
          · subst hc; left; exact hct
          · right; exact ⟨c, hc, hct⟩
        · rintro (hct | ⟨c, hc, hct⟩)
          · exact ⟨(s, min (s + size) e), Or.inl rfl, hct⟩
          · exact ⟨c, Or.inr hc, hct⟩
      rw [hsplit, ih (min (s + size) e) (by omega) t]
      omega
    · rw [chunkPlanAux_nil size e (n+1) s hs]
      simp; omega

/-- Claim C2: for every `(start_date, end_date, granularity)` with
`start_date < end_date`, the chunks iterated by `get_historical_data` are
contiguous (each chunk's end equals the next chunk's start), pairwise
non-overlapping and in ascending time order, each chunk is non-empty with
duration at most the granularity's configured chunk size, the first chunk
starts at `start_date`, the final chunk is clipped to `end_date`, and the
chunks cover exactly `[start_date, end_date)`. -/
theorem getHistoricalData_chunks_spec (s e size : Nat) (g : String) (plan : List (Nat × Nat))
    (hse : s < e) (hsize : size = 3600 * chunkSizeHours g)
    (hplan : plan = chunkPlan s e size) :
    List.Chain' (fun a b => a.2 = b.1) plan ∧
    List.Pairwise (fun a b => a.2 ≤ b.1) plan ∧
    (∀ c ∈ plan, c.1 < c.2 ∧ c.2 ≤ c.1 + size) ∧
    plan.head? = some (s, min (s + size) e) ∧
    (plan.getLast?.map Prod.snd) = some e ∧
    (∀ t, (∃ c ∈ plan, c.1 ≤ t ∧ t < c.2) ↔ (s ≤ t ∧ t < e)) := by
  have hpos : 0 < size := by
    have := chunkSizeHours_pos g
    omega
  subst hplan
  unfold chunkPlan
  refine ⟨chunkPlanAux_chain size e hpos _ s le_rfl,
          chunkPlanAux_pairwise size e hpos _ s le_rfl, ?_,
          chunkPlanAux_head size e _ s le_rfl hse,
          chunkPlanAux_getLast size e hpos _ s le_rfl hse,
          chunkPlanAux_cover size e hpos _ s le_rfl⟩
  intro c hc
  have := chunkPlanAux_mem size e hpos _ s le_rfl c hc
  omega

theorem getHistoricalData_chunks_spec_witness :
    List.Chain' (fun a b => a.2 = b.1) [((0 : Nat), (2 : Nat))] ∧
    List.Pairwise (fun a b => a.2 ≤ b.1) [((0 : Nat), (2 : Nat))] ∧
    (∀ c ∈ [((0 : Nat), (2 : Nat))], c.1 < c.2 ∧ c.2 ≤ c.1 + 1080000) ∧
    ([((0 : Nat), (2 : Nat))]).head? = some (0, min (0 + 1080000) 2) ∧
    (([((0 : Nat), (2 : Nat))]).getLast?.map Prod.snd) = some 2 ∧
    (∀ t, (∃ c ∈ [((0 : Nat), (2 : Nat))], c.1 ≤ t ∧ t < c.2) ↔ (0 ≤ t ∧ t < 2)) :=
  getHistoricalData_chunks_spec 0 2 1080000 "ONE_HOUR" [(0, 2)]
    (by decide) (by decide) (by decide)

/-- Claim C3 counterexample: for granularity `FIVE_MINUTE` the chunk size
is 25 HOURS (the table value is passed to `timedelta(hours=...)`), so a
range spanning exactly 10 hours (36000 seconds) is covered by a single
chunk, not the 5 chunks of 125 minutes each that the claim asserts. -/
theorem fiveMinuteTenHours_counterexample :
    chunkSizeHours "FIVE_MINUTE" = 25 ∧
    chunkPlan 0 36000 (3600 * chunkSizeHours "FIVE_MINUTE") = [(0, 36000)] ∧
    (chunkPlan 0 36000 (3600 * chunkSizeHours "FIVE_MINUTE")).length ≠ 5 := by
  have h25 : chunkSizeHours "FIVE_MINUTE" = 25 := by decide
  have hmin : min (0 + 90000) 36000 = 36000 := by omega
  have hplan : chunkPlan 0 36000 (3600 * chunkSizeHours "FIVE_MINUTE") = [(0, 36000)] := by
    rw [h25]
    rw [chunkPlan_eq 0 36000 (3600 * 25) (by norm_num)]
    simp only [hmin, if_pos (by norm_num : (0 : Nat) < 36000)]
    rw [chunkPlan_eq 36000 36000 (3600 * 25) (by norm_num)]
    simp
  exact ⟨h25, hplan, by rw [hplan]; decide⟩

/-- Claim C3 (amended): for granularity `FIVE_MINUTE` the configured chunk
size is 25 hours (90000 seconds), so over a range spanning exactly 10 hours
the chunking loop of `get_historical_data` emits exactly one chunk, clipped
to the exact requested end. -/
theorem fiveMinuteTenHours_amended (s : Nat) :
    3600 * chunkSizeHours "FIVE_MINUTE" = 90000 ∧
    chunkPlan s (s + 36000) (3600 * chunkSizeHours "FIVE_MINUTE") = [(s, s + 36000)] ∧
    (chunkPlan s (s + 36000) (3600 * chunkSizeHours "FIVE_MINUTE")).length = 1 := by
  have h25 : chunkSizeHours "FIVE_MINUTE" = 25 := by decide
  have hmin : min (s + 3600 * 25) (s + 36000) = s + 36000 := by omega
  have hplan : chunkPlan s (s + 36000) (3600 * chunkSizeHours "FIVE_MINUTE") = [(s, s + 36000)] := by
    rw [h25]
    rw [chunkPlan_eq s (s + 36000) (3600 * 25) (by norm_num)]
    simp only [hmin, if_pos (by omega : s < s + 36000)]
    rw [chunkPlan_eq (s + 36000) (s + 36000) (3600 * 25) (by norm_num)]
    simp
  exact ⟨by rw [h25], hplan, by rw [hplan]; rfl⟩

/-! ### Cache behaviour -/

theorem getCachedData_liveWindow (cache : Cache) (k : String) (e now : Nat)
    (h : now - e < 3600) : (getCachedData cache k e now).1 = none := by
  unfold getCachedData
  cases hk : cache k with
  | none => rfl
  | some entry =>
    by_cases hexp : now - entry.timestamp > CACHE_TTL
    · simp [hexp]
    · simp [hexp, h]

/-- Claim C1: for every chunk processed by `get_historical_data` whose end
timestamp is within the live window (`now - end < 3600` at the moment of
processing), `_get_cached_data` reports a miss for any cache content and
any key (regardless of entry freshness), the chunk's processing invokes
`_cache_data` for no key (the cache-write trace is unchanged), and the
chunk is fetched live (exactly one upstream call for the chunk is
recorded). -/
theorem liveWindow_chunk_uncached (productId g : String) (now s e : Nat)
    (fetch : Nat → Nat → FetchResult) (cache : Cache) (cacheKey : String)
    (st st' : RunState) (h : now - e < 3600)
    (hrun : processChunk productId g now fetch st (s, e) = .ok st') :
    (getCachedData cache cacheKey e now).1 = none ∧
    st'.cacheWrites = st.cacheWrites ∧
    st'.apiCalls = st.apiCalls ++ [⟨productId, s, e, g⟩] := by
  refine ⟨getCachedData_liveWindow cache cacheKey e now h, ?_⟩
  rcases hg : getCachedData st.cache (getCacheKey productId s e g now) e now with ⟨o, cache'⟩
  have ho : o = none := by
    have := getCachedData_liveWindow st.cache (getCacheKey productId s e g now) e now h
    rw [hg] at this
    exact this
  subst ho
  simp only [processChunk] at hrun
  rw [hg] at hrun
  rcases hf : fetch s e with cs | _ | _ <;> rw [hf] at hrun
  · have hnc : ¬ (3600 ≤ now - e) := by omega
    simp only [hnc, if_false] at hrun
    cases hrun
    exact ⟨rfl, rfl⟩
  · cases hrun
    exact ⟨rfl, rfl⟩
  · cases hrun

theorem liveWindow_chunk_uncached_witness :
    (getCachedData emptyCache "k" 1 0).1 = none ∧
    (⟨emptyCache, [], [], [⟨"P", 0, 1, "ONE_HOUR"⟩], []⟩ : RunState).cacheWrites
      = (initState emptyCache).cacheWrites ∧
    (⟨emptyCache, [], [], [⟨"P", 0, 1, "ONE_HOUR"⟩], []⟩ : RunState).apiCalls
      = (initState emptyCache).apiCalls ++ [⟨"P", 0, 1, "ONE_HOUR"⟩] :=
  liveWindow_chunk_uncached "P" "ONE_HOUR" 0 0 1 (fun _ _ => .ok []) emptyCache "k"
    (initState emptyCache) ⟨emptyCache, [], [], [⟨"P", 0, 1, "ONE_HOUR"⟩], []⟩
    (by decide) rfl

/-- Claim C6: when the stored entry for a key is older than the TTL at read
time, `_get_cached_data` reports a miss and deletes the on-disk entry, so a
subsequent get for the same key also reports a miss and the file is gone. -/
theorem cacheExpiry_evicts (cache : Cache) (k : String) (e now : Nat) (entry : CacheEntry)
    (hk : cache k = some entry) (hexp : now - entry.timestamp > CACHE_TTL) :
    (getCachedData cache k e now).1 = none ∧
    (getCachedData cache k e now).2 k = none ∧
    (getCachedData (getCachedData cache k e now).2 k e now).1 = none ∧
    (getCachedData (getCachedData cache k e now).2 k e now).2 k = none := by
  have h1 : getCachedData cache k e now = (none, fun k' => if k' = k then none else cache k') := by
    unfold getCachedData
    rw [hk]
    simp [hexp]
  have hdel : (fun k' => if k' = k then none else cache k') k = none := by simp
  have h2 : getCachedData (fun k' => if k' = k then none else cache k') k e now =
      (none, fun k' => if k' = k then none else cache k') := by
    unfold getCachedData
    simp
  rw [h1, h2]
  exact ⟨rfl, hdel, rfl, hdel⟩

theorem cacheExpiry_evicts_witness :
    (getCachedData (fun k => if k = "k" then some ⟨0, []⟩ else none) "k" 0 10000).1 = none ∧
    (getCachedData (fun k => if k = "k" then some ⟨0, []⟩ else none) "k" 0 10000).2 "k" = none ∧
    (getCachedData
      (getCachedData (fun k => if k = "k" then some ⟨0, []⟩ else none) "k" 0 10000).2
      "k" 0 10000).1 = none ∧
    (getCachedData
      (getCachedData (fun k => if k = "k" then some ⟨0, []⟩ else none) "k" 0 10000).2
      "k" 0 10000).2 "k" = none :=
  cacheExpiry_evicts (fun k => if k = "k" then some ⟨0, []⟩ else none) "k" 0 10000
    ⟨0, []⟩ (by simp) (by decide)

/-- Claim C7: `_cache_data(key, candles)` followed by a `_get_cached_data`
for the same key — at a read time within the TTL of the write and with a
request end outside the live window — returns exactly the stored candle
list (the round trip through the on-disk entry is the identity). -/
theorem cacheRoundTrip (cache : Cache) (k : String) (candles : List Candle)
    (tWrite tRead e : Nat) (httl : tRead - tWrite ≤ CACHE_TTL) (hlive : 3600 ≤ tRead - e) :
    (getCachedData (cacheData cache k candles tWrite) k e tRead).1 = some candles := by
  unfold getCachedData cacheData
  simp only [CACHE_TTL] at httl
  simp [show ¬(tRead - tWrite > CACHE_TTL) by simp [CACHE_TTL]; omega,
        show ¬(tRead - e < 3600) by omega]

theorem cacheRoundTrip_witness :
    (getCachedData (cacheData emptyCache "k" [⟨1, 1, 2, 3, 4, 5, 6⟩] 0) "k" 0 3600).1 =
      some [⟨1, 1, 2, 3, 4, 5, 6⟩] :=
  cacheRoundTrip emptyCache "k" [⟨1, 1, 2, 3, 4, 5, 6⟩] 0 3600 0 (by decide) (by decide)

/-! ### Dedup and sort -/

theorem insertByStart_perm (c : Candle) :
    ∀ l, List.Perm (insertByStart c l) (c :: l) := by
  intro l
  induction l with
  | nil => simp [insertByStart]
  | cons d rest ih =>
    simp only [insertByStart]
    by_cases hcd : c.start ≤ d.start
    · simp [hcd]
    · simp only [hcd, if_false]
      exact (ih.cons d).trans (List.Perm.swap c d rest)

theorem sortByStart_perm : ∀ l, List.Perm (sortByStart l) l := by
  intro l
  induction l with
  | nil => simp [sortByStart]
  | cons c rest ih =>
    simp only [sortByStart]
    exact (insertByStart_perm c (sortByStart rest)).trans (ih.cons c)

theorem insertByStart_pairwise (c : Candle) :
    ∀ l, List.Pairwise (fun a b => a.start ≤ b.start) l →
      List.Pairwise (fun a b => a.start ≤ b.start) (insertByStart c l) := by
  intro l
  induction l with
  | nil => intro _; simp [insertByStart]
  | cons d rest ih =>
    intro h
    rcases List.pairwise_cons.mp h with ⟨hd, hrest⟩
    simp only [insertByStart]
    by_cases hcd : c.start ≤ d.start
    · simp only [hcd, if_true]
      apply List.pairwise_cons.mpr
      refine ⟨?_, h⟩
      intro x hx
      rcases List.mem_cons.mp hx with hx | hx
      · subst hx; exact hcd
      · exact le_trans hcd (hd x hx)
    · simp only [hcd, if_false]
      apply List.pairwise_cons.mpr
      constructor
      · intro x hx
        have hx' : x ∈ c :: rest := (insertByStart_perm c rest).mem_iff.mp hx
        rcases List.mem_cons.mp hx' with hx' | hx'
        · subst hx'; omega
        · exact hd x hx'
      · exact ih hrest

theorem sortByStart_sorted :
    ∀ l, List.Pairwise (fun a b => a.start ≤ b.start) (sortByStart l) := by
  intro l
  induction l with
  | nil => simp [sortByStart]
  | cons c rest ih =>
    simp only [sortByStart]
    exact insertByStart_pairwise c (sortByStart rest) ih

theorem addUnseen_spec (cs : List Candle) :
    ∀ seen,
      (∀ k ∈ seen, k ∈ (addUnseen seen cs).2) ∧
      (∀ c ∈ (addUnseen seen cs).1, candleKey c ∉ seen ∧ candleKey c ∈ (addUnseen seen cs).2) ∧
      List.Nodup ((addUnseen seen cs).1.map candleKey) := by
  induction cs with
  | nil => intro seen; simp [addUnseen]
  | cons c rest ih =>
    intro seen
    by_cases hc : candleKey c ∈ seen
    · simp only [addUnseen, hc, if_true]
      exact ih seen
    · simp only [addUnseen, hc, if_false]
      rcases ih (candleKey c :: seen) with ⟨hmono, hmem, hnodup⟩
      refine ⟨?_, ?_, ?_⟩
      · intro k hk
        exact hmono k (List.mem_cons_of_mem _ hk)
      · intro x hx
        rcases List.mem_cons.mp hx with hx | hx
        · subst hx
          exact ⟨hc, hmono _ (List.mem_cons_self _ _)⟩
        · rcases hmem x hx with ⟨hnot, hin⟩
          exact ⟨fun hmem' => hnot (List.mem_cons_of_mem _ hmem'), hin⟩
      · simp only [List.map_cons, List.nodup_cons]
        refine ⟨?_, hnodup⟩
        intro hmem'
        rcases List.mem_map.mp hmem' with ⟨x, hx, hkey⟩
        exact (hmem x hx).1 (hkey ▸ List.mem_cons_self _ _)

/-- The dedup invariant of the assembly pass: the accumulated candles have
pairwise distinct `(start, close)` keys, and every accumulated key is in
the seen-set. -/
def DedupInv (st : RunState) : Prop :=
  List.Nodup (st.allCandles.map candleKey) ∧ ∀ c ∈ st.allCandles, candleKey c ∈ st.seen

theorem appendUnseen_inv (st : RunState) (cs : List Candle) (hinv : DedupInv st) :
    List.Nodup ((st.allCandles ++ (addUnseen st.seen cs).1).map candleKey) ∧
    ∀ c ∈ st.allCandles ++ (addUnseen st.seen cs).1,
      candleKey c ∈ (addUnseen st.seen cs).2 := by
  rcases addUnseen_spec cs st.seen with ⟨hmono, hmem, hnodup⟩
  constructor
  · rw [List.map_append, List.nodup_append]
    refine ⟨hinv.1, hnodup, ?_⟩
    intro k hk hk'
    rcases List.mem_map.mp hk with ⟨x, hx, hkey⟩
    rcases List.mem_map.mp hk' with ⟨y, hy, hkey'⟩
    have hxseen : candleKey x ∈ st.seen := hinv.2 x hx
    have hynot : candleKey y ∉ st.seen := (hmem y hy).1
    rw [hkey] at hxseen
    rw [hkey'] at hynot
    exact hynot hxseen
  · intro c hc
    rcases List.mem_append.mp hc with hc | hc
    · exact hmono (candleKey c) (hinv.2 c hc)
    · exact (hmem c hc).2

/-! ### Invariants of the chunk loop -/

theorem processChunk_ok_spec (productId g : String) (now : Nat)
    (fetch : Nat → Nat → FetchResult) (st st' : RunState) (chunk : Nat × Nat)
    (hrun : processChunk productId g now fetch st chunk = .ok st') :
    (DedupInv st → DedupInv st') ∧
    (st'.apiCalls = st.apiCalls ∨
     st'.apiCalls = st.apiCalls ++ [⟨productId, chunk.1, chunk.2, g⟩]) := by
  simp only [processChunk] at hrun
  split at hrun
  · cases hrun
    exact ⟨fun hinv => appendUnseen_inv st _ hinv, Or.inl rfl⟩
  · split at hrun
    · split at hrun
      · cases hrun
        exact ⟨fun hinv => appendUnseen_inv st _ hinv, Or.inr rfl⟩
      · cases hrun
        exact ⟨fun hinv => appendUnseen_inv st _ hinv, Or.inr rfl⟩
    · cases hrun
      exact ⟨fun hinv => hinv, Or.inr rfl⟩
    · cases hrun

theorem processChunk_isOk (productId g : String) (now : Nat)
    (fetch : Nat → Nat → FetchResult) (st : RunState) (chunk : Nat × Nat)
    (hf : fetch chunk.1 chunk.2 ≠ .otherError) :
    ∃ st', processChunk productId g now fetch st chunk = .ok st' := by
  simp only [processChunk]
  rcases hg : getCachedData st.cache (getCacheKey productId chunk.1 chunk.2 g now)
      chunk.2 now with ⟨o, cache'⟩
  cases o with
  | some cachedCandles => exact ⟨_, rfl⟩
  | none =>
    rcases hfr : fetch chunk.1 chunk.2 with cs | _ | _
    · by_cases hw : 3600 ≤ now - chunk.2
      · simp only [hw, if_true]
        exact ⟨_, rfl⟩
      · simp only [hw, if_false]
        exact ⟨_, rfl⟩
    · exact ⟨_, rfl⟩
    · exact absurd hfr hf

theorem runChunks_ok_inv (productId g : String) (now : Nat)
    (fetch : Nat → Nat → FetchResult) :
    ∀ plan (st st' : RunState), runChunks productId g now fetch st plan = .ok st' →
      DedupInv st → DedupInv st' := by
  intro plan
  induction plan with
  | nil =>
    intro st st' hrun hinv
    simp only [runChunks] at hrun
    cases hrun
    exact hinv
  | cons c rest ih =>
    intro st st' hrun hinv
    simp only [runChunks] at hrun
    split at hrun
    · cases hrun
    · rename_i st1 h1
      exact ih st1 st' hrun ((processChunk_ok_spec productId g now fetch st st1 c h1).1 hinv)

theorem runChunks_granularity (productId g : String) (now : Nat)
    (fetch : Nat → Nat → FetchResult) :
    ∀ plan (st st' : RunState), runChunks productId g now fetch st plan = .ok st' →
      (∀ call ∈ st.apiCalls, call.granularity = g) →
      (∀ call ∈ st'.apiCalls, call.granularity = g) := by
  intro plan
  induction plan with
  | nil =>
    intro st st' hrun hcalls
    simp only [runChunks] at hrun
    cases hrun
    exact hcalls
  | cons c rest ih =>
    intro st st' hrun hcalls
    simp only [runChunks] at hrun
    split at hrun
    · cases hrun
    · rename_i st1 h1
      refine ih st1 st' hrun ?_
      rcases (processChunk_ok_spec productId g now fetch st st1 c h1).2 with hc | hc
      · rw [hc]; exact hcalls
      · rw [hc]
        intro call hcall
        rcases List.mem_append.mp hcall with hcall | hcall
        · exact hcalls call hcall
        · rcases List.mem_singleton.mp hcall with rfl
          rfl

theorem runChunks_isOk (productId g : String) (now : Nat)
    (fetch : Nat → Nat → FetchResult) (hf : ∀ a b, fetch a b ≠ .otherError) :
    ∀ plan (st : RunState), ∃ st', runChunks productId g now fetch st plan = .ok st' := by
  intro plan
  induction plan with
  | nil => intro st; exact ⟨st, rfl⟩
  | cons c rest ih =>
    intro st
    obtain ⟨st1, h1⟩ := processChunk_isOk productId g now fetch st c (hf c.1 c.2)
    obtain ⟨st', h2⟩ := ih st1
    refine ⟨st', ?_⟩
    simp only [runChunks, h1]
    exact h2

/-- Claim C8: for every request (any product, range, granularity, wall
clock, cache content and upstream behaviour), the candle list returned by
`get_historical_data` contains no two entries with identical
`(start, close)` pairs. -/
theorem getHistoricalData_nodup (productId : String) (s e : Nat) (g : String)
    (now : Nat) (cache : Cache) (fetch : Nat → Nat → FetchResult) :
    List.Nodup ((resultCandles
      (getHistoricalData productId s e g now cache fetch)).map candleKey) := by
  simp only [getHistoricalData]
  rcases hr : runChunks productId g now fetch (initState cache)
      (chunkPlan s e (3600 * chunkSizeHours g)) with err | st
  · simp [resultCandles]
  · simp only [resultCandles]
    have hinv : DedupInv st :=
      runChunks_ok_inv productId g now fetch _ _ st hr ⟨by simp [initState], by simp [initState]⟩
    have hperm := (sortByStart_perm st.allCandles).map candleKey
    exact hperm.nodup_iff.mpr hinv.1

/-- Claim C9: for every request, the sequence of `start` values in the list
returned by `get_historical_data` is non-decreasing from the first element
to the last (the final list is sorted chronologically by `start`). -/
theorem getHistoricalData_sorted (productId : String) (s e : Nat) (g : String)
    (now : Nat) (cache : Cache) (fetch : Nat → Nat → FetchResult) :
    List.Pairwise (fun a b => a.start ≤ b.start)
      (resultCandles (getHistoricalData productId s e g now cache fetch)) := by
  simp only [getHistoricalData]
  rcases hr : runChunks productId g now fetch (initState cache)
      (chunkPlan s e (3600 * chunkSizeHours g)) with err | st
  · simp [resultCandles]
  · simp only [resultCandles]
    exact sortByStart_sorted st.allCandles

/-- Claim C5 counterexample: `get_historical_data` catches only
`requests.exceptions.HTTPError` around the upstream fetch, so any other
exception raised by the fetch (e.g. a `ConnectionError` or a `KeyError` on
the response) propagates to the caller: with an upstream that raises a
non-HTTP error, the whole run aborts instead of returning a result. -/
theorem getHistoricalData_propagates_counterexample :
    getHistoricalData "BTC-USDC" 0 2 "ONE_HOUR" 10000 emptyCache
      (fun _ _ => .otherError) = .error () := by
  rfl

/-- Claim C5 (amended): `get_historical_data` propagates no exception
provided every upstream fetch outcome is either a candle list or an
`HTTPError` (the only exception type caught on the fetch path); cache read
and write failures never propagate (they are swallowed inside
`_get_cached_data` and `_cache_data`); any other exception raised by the
upstream fetch propagates to the caller. -/
theorem getHistoricalData_no_propagation_amended (productId : String) (s e : Nat)
    (g : String) (now : Nat) (cache : Cache) (fetch : Nat → Nat → FetchResult)
    (hf : ∀ a b, fetch a b ≠ .otherError) :
    ∃ r, getHistoricalData productId s e g now cache fetch = .ok r := by
  obtain ⟨st', hst'⟩ := runChunks_isOk productId g now fetch hf
    (chunkPlan s e (3600 * chunkSizeHours g)) (initState cache)
  simp only [getHistoricalData, hst']
  exact ⟨_, rfl⟩

theorem getHistoricalData_no_propagation_amended_witness :
    ∃ r, getHistoricalData "P" 0 1 "ONE_HOUR" 0 emptyCache (fun _ _ => .ok []) = .ok r :=
  getHistoricalData_no_propagation_amended "P" 0 1 "ONE_HOUR" 0 emptyCache
    (fun _ _ => .ok []) (fun _ _ h => FetchResult.noConfusion h)

/-- Claim C10: an unknown granularity string is not rejected:
`CHUNK_SIZE_CANDLES.get` falls back to a chunk size of 300 hours, the
granularity string is passed through unchanged into the cache key (it is
the key's suffix) and into every upstream API call, and the run still
succeeds (the result is `ok`). -/
theorem unknownGranularity_fallback (g productId : String) (s e s0 e0 now : Nat)
    (cache : Cache) (fetch : Nat → Nat → FetchResult) (res : List Candle) (st : RunState)
    (hg : CHUNK_SIZE_CANDLES.lookup g = none)
    (hrun : getHistoricalData productId s0 e0 g now cache fetch = .ok (res, st)) :
    chunkSizeHours g = 300 ∧
    getCacheKey productId s e g now =
      (productId ++ "_" ++ toString (s - s % 3600) ++ "_" ++
        toString (if now - e < 3600 then e else e - e % 3600) ++ "_") ++ g ∧
    st.apiCalls.all (fun call => call.granularity == g) = true ∧
    (getHistoricalData productId s0 e0 g now cache fetch).isOk = true := by
  refine ⟨by simp [chunkSizeHours, hg], rfl, ?_, by rw [hrun]; rfl⟩
  simp only [getHistoricalData] at hrun
  rcases hr : runChunks productId g now fetch (initState cache)
      (chunkPlan s0 e0 (3600 * chunkSizeHours g)) with err | st1 <;> rw [hr] at hrun
  · cases hrun
  · simp only [Except.ok.injEq, Prod.mk.injEq] at hrun
    obtain ⟨hres, hst⟩ := hrun
    subst hst
    have hcalls : ∀ call ∈ st1.apiCalls, call.granularity = g :=
      runChunks_granularity productId g now fetch _ _ st1 hr (by simp [initState])
    rw [List.all_eq_true]
    intro call hcall
    exact beq_iff_eq.mpr (hcalls call hcall)

theorem unknownGranularity_fallback_witness :
    chunkSizeHours "TWO_MINUTE" = 300 ∧
    getCacheKey "P" 0 0 "TWO_MINUTE" 0 =
      ("P" ++ "_" ++ toString ((0 : Nat) - 0 % 3600) ++ "_" ++
        toString (if (0 : Nat) - 0 < 3600 then (0 : Nat) else 0 - 0 % 3600) ++ "_") ++
        "TWO_MINUTE" ∧
    (⟨emptyCache, [], [], [⟨"P", 0, 1, "TWO_MINUTE"⟩], []⟩ : RunState).apiCalls.all
      (fun call => call.granularity == "TWO_MINUTE") = true ∧
    (getHistoricalData "P" 0 1 "TWO_MINUTE" 0 emptyCache (fun _ _ => .ok [])).isOk = true :=
  unknownGranularity_fallback "TWO_MINUTE" "P" 0 0 0 1 0 emptyCache (fun _ _ => .ok [])
    [] ⟨emptyCache, [], [], [⟨"P", 0, 1, "TWO_MINUTE"⟩], []⟩ (by decide) rfl

/-! ### The retry loop of fetch_coinbase_data (trend_detection.py) -/

/-- Outcome of one `get_public_candles` attempt inside `fetch_coinbase_data`:
a candle list, or a raised exception (the retry loop catches every
exception type). -/
inductive TdFetchOutcome where
  | ok (candles : List ApiCandle)
  | err
deriving DecidableEq, Repr

/-- `max_retries = 3` in `fetch_coinbase_data`. -/
def max_retries : Nat := 3

/-- The inner retry loop of `fetch_coinbase_data` for one chunk:
`retries = 0; while retries < max_retries:` try the attempt; on success
break with the candles; on an exception `retries += 1` and, when
`retries < max_retries`, sleep `2 ** retries` seconds before the next
attempt.  The oracle gives each attempt's outcome (indexed by the retry
counter); the result is the fetched candles (`some`, possibly empty) or
`none` when the bound is exhausted, together with the list of backoff
delays slept.  The fuel argument is `max_retries - retries`. -/
def retryLoop (oracle : Nat → TdFetchOutcome) : Nat → Nat → Option (List ApiCandle) × List Nat
  | 0, _ => (none, [])
  | fuel + 1, retries =>
    match oracle retries with
    | .ok cs => (some cs, [])
    | .err =>
      let rest := retryLoop oracle fuel (retries + 1)
      if retries + 1 < max_retries then (rest.1, 2 ^ (retries + 1) :: rest.2)
      else (rest.1, rest.2)

/-- `timedelta(hours=350)` in seconds: the chunk span of
`fetch_coinbase_data` (350 one-hour candles). -/
def tdChunkSize : Nat := 350 * 3600

/-- The backward chunk loop of `fetch_coinbase_data`: starting from `end`,
each chunk covers `[max(current_end - 350h, start), current_end)`.  On a
successful chunk the candles are appended and the loop moves to the
chunk's start (stopping when it reaches `start`); when the retry bound is
exhausted (`retries == max_retries`) the WHOLE loop breaks — the remaining
(earlier) chunks are never fetched.  The oracle is indexed by the chunk
counter and the retry counter; the fuel bounds the iteration count. -/
def fetchChunksLoop (oracle : Nat → Nat → TdFetchOutcome) (startT : Nat) :
    Nat → Nat → Nat → List ApiCandle
  | 0, _, _ => []
  | fuel + 1, currentEnd, i =>
    if startT < currentEnd then
      let chunkStart := max (currentEnd - tdChunkSize) startT
      match (retryLoop (oracle i) max_retries 0).1 with
      | none => []
      | some cs =>
        if chunkStart ≤ startT then cs
        else cs ++ fetchChunksLoop oracle startT fuel chunkStart (i + 1)
    else []

/-- `fetch_coinbase_data`'s accumulation of `all_candles` over the range
`[start, end)` (the subsequent DataFrame construction and index sort are
out of scope of the claims). -/
def fetchCoinbaseData (oracle : Nat → Nat → TdFetchOutcome) (startT endT : Nat) :
    List ApiCandle :=
  fetchChunksLoop oracle startT (endT - startT) endT 0

/-- Claim C4 counterexample: in `fetch_coinbase_data`, exhausting the retry
bound on one chunk breaks the WHOLE fetch loop, it does not continue with
the next chunk: with the first (most recent) chunk failing all 3 attempts
and the next chunk's fetch succeeding with a candle, the overall result is
empty — the successful next chunk is never processed. -/
theorem fetchCoinbaseData_abort_counterexample :
    fetchCoinbaseData
      (fun i _ => if i = 0 then .err else .ok [⟨5, 1, 2, 3, 4, 6⟩]) 0 (2 * tdChunkSize) = [] ∧
    (fun i (_ : Nat) =>
        if i = 0 then (.err : TdFetchOutcome) else .ok [⟨5, 1, 2, 3, 4, 6⟩]) 1 0 =
      .ok [⟨5, 1, 2, 3, 4, 6⟩] :=
  ⟨rfl, rfl⟩

/-- Claim C4 (amended): in `fetch_coinbase_data` the fetch for a chunk is
retried up to `max_retries = 3` attempts with exponential backoff (delays
`2 ** retries`, i.e. 2 then 4 seconds, doubling per attempt); when the
first three attempts for a chunk all fail, that chunk contributes no
candles — regardless of what a fourth attempt would return — and the whole
fetch loop terminates, skipping all remaining chunks (it does not merely
continue with the next chunk).  (`get_historical_data` in
`historicaldata.py` performs no retry at all: a single attempt whose
`HTTPError` is caught, after which processing continues with the next
chunk.) -/
theorem fetchCoinbaseData_retry_amended (oracle : Nat → Nat → TdFetchOutcome)
    (startT endT fuel : Nat) (hf : ∀ a, a < max_retries → oracle 0 a = .err) :
    retryLoop (oracle 0) max_retries 0 = (none, [2, 4]) ∧
    fetchChunksLoop oracle startT fuel endT 0 = [] := by
  have h0 := hf 0 (by decide)
  have h1 := hf 1 (by decide)
  have h2 := hf 2 (by decide)
  have hretry : retryLoop (oracle 0) max_retries 0 = (none, [2, 4]) := by
    simp [max_retries, retryLoop, h0, h1, h2]
  refine ⟨hretry, ?_⟩
  cases fuel with
  | zero => rfl
  | succ n =>
    by_cases hse : startT < endT
    · simp [fetchChunksLoop, hse, hretry]
    · simp [fetchChunksLoop, hse]

theorem fetchCoinbaseData_retry_amended_witness :
    retryLoop ((fun _ _ => TdFetchOutcome.err) 0) max_retries 0 = (none, [2, 4]) ∧
    fetchChunksLoop (fun _ _ => TdFetchOutcome.err) 0 5 1 0 = [] :=
  fetchCoinbaseData_retry_amended (fun _ _ => .err) 0 1 5 (fun _ _ => rfl)
